import Mathlib

set_option maxRecDepth 100000

/-!
Shallow embedding of the cpdl format-recovery tool (src/cpdl.cpp).

The program reads a raw byte buffer, and for each candidate record size
(16, 20, 24, 32 bytes), each byte order (big endian first, then little
endian) and each header offset (0, 4, ..., 60) greedily decodes
consecutive 16-byte record prefixes (type id, x, y, z) until the first
record whose coordinates are not all plausible; it keeps the longest run,
with strict greater-than comparisons at both selection levels.

Modelling conventions:
- a buffer is a list of natural numbers; byteAt truncates to one byte,
  embedding the uint8_t element type;
- an IEEE-754 single-precision float is represented by its 32-bit
  pattern; readBEFloat and readLEFloat in the source reinterpret the
  uint32 bit-for-bit, so record fields x, y, z carry the bit pattern;
- the plausibility test abs(f) < 100000.0f is embedded as exact
  arithmetic on the bit pattern: the comparison of two finite binary32
  values is the comparison of their exact real values, NaN and infinity
  (exponent field 255) compare false; floatValQ below gives the exact
  rational value of a finite pattern and the bridge is proved;
- the while loop of tryRecordSize is embedded with a structural fuel
  argument; fuel bufLen + 1 is shown sufficient for any positive stride.
-/

inductive Endianness
  | Big
  | Little
deriving DecidableEq, Repr

/-- One decoded record, mirroring struct PDLObject: type id, the three
coordinate bit patterns, and the byte offset the record starts at. -/
structure PDLObject where
  type : Nat
  x : Nat
  y : Nat
  z : Nat
  offset : Nat
deriving DecidableEq, Repr

/-- Byte i of the buffer, as the uint8_t value the C++ reader sees. -/
def byteAt (buf : List Nat) (i : Nat) : Nat := buf.getD i 0 % 256

/-- readBEUInt32: four bytes assembled most significant first. -/
def readBEUInt32 (buf : List Nat) (p : Nat) : Nat :=
  byteAt buf p <<< 24 ||| byteAt buf (p + 1) <<< 16 |||
    byteAt buf (p + 2) <<< 8 ||| byteAt buf (p + 3)

/-- readLEUInt32: four bytes assembled least significant first. -/
def readLEUInt32 (buf : List Nat) (p : Nat) : Nat :=
  byteAt buf (p + 3) <<< 24 ||| byteAt buf (p + 2) <<< 16 |||
    byteAt buf (p + 1) <<< 8 ||| byteAt buf p

/-- Byte-order dispatch used inside the record decoder. -/
def readUInt32 (e : Endianness) (buf : List Nat) (p : Nat) : Nat :=
  match e with
  | .Big => readBEUInt32 buf p
  | .Little => readLEUInt32 buf p

/-- Decoding of one record at position p: the loop body of tryRecordSize.
readBEFloat and readLEFloat reinterpret the uint32 bit-for-bit, so the
coordinate fields hold the 32-bit patterns. -/
def decodeAt (buf : List Nat) (e : Endianness) (p : Nat) : PDLObject :=
  { type := readUInt32 e buf p
    x := readUInt32 e buf (p + 4)
    y := readUInt32 e buf (p + 8)
    z := readUInt32 e buf (p + 12)
    offset := p }

/-- Exponent field of a binary32 bit pattern. -/
def floatExp (w : Nat) : Nat := w / 2 ^ 23 % 2 ^ 8

/-- Fraction field of a binary32 bit pattern. -/
def floatFrac (w : Nat) : Nat := w % 2 ^ 23

/-- Magnitude of a finite binary32 pattern, scaled by 2 ^ 150 so that it
is a natural number: subnormals are frac * 2 ^ (-149), normals are
(2 ^ 23 + frac) * 2 ^ (exp - 150). -/
def floatSigNat (w : Nat) : Nat :=
  if floatExp w = 0 then 2 * floatFrac w
  else (2 ^ 23 + floatFrac w) * 2 ^ floatExp w

/-- Exact rational value of a finite binary32 bit pattern. -/
def floatValQ (w : Nat) : ℚ :=
  (if w / 2 ^ 31 % 2 = 1 then (-1 : ℚ) else 1) * (floatSigNat w : ℚ) / 2 ^ 150

/-- isReasonableCoord: std::abs(f) < 100000.0f on the float with bit
pattern w. NaN and infinity (exponent field 255) compare false; for a
finite value the comparison of exact reals is the comparison of the
scaled magnitudes, since 100000.0f is exactly 100000 = 12800000 * 2 ^ (-7). -/
def isReasonableCoord (w : Nat) : Bool :=
  if floatExp w = 255 then false
  else decide (floatSigNat w < 100000 * 2 ^ 150)

/-- The plausibility conjunction applied to a decoded record in the scan
loop of tryRecordSize. -/
def recordPlausible (r : PDLObject) : Bool :=
  isReasonableCoord r.x && isReasonableCoord r.y && isReasonableCoord r.z

/-- getTypeName: fixed lookup with fallback. -/
def getTypeName (type : Nat) : String :=
  if type = 3437124069 then "Vehicle"
  else if type = 1462988517 then "Road"
  else "Object"

/-- Fuel-indexed form of the while loop of tryRecordSize: while at least
recordSize bytes remain, decode a record; append it and advance by
recordSize if plausible, stop otherwise. -/
def scanLoop (buf : List Nat) (s : Nat) (e : Endianness) :
    Nat → Nat → List PDLObject
  | 0, _ => []
  | fuel + 1, p =>
    if p + s ≤ buf.length then
      if recordPlausible (decodeAt buf e p) then
        decodeAt buf e p :: scanLoop buf s e fuel (p + s)
      else []
    else []

/-- The record run obtained from one header offset: the while loop with
enough fuel for any positive stride. -/
def scanFrom (buf : List Nat) (s : Nat) (e : Endianness) (p : Nat) :
    List PDLObject :=
  scanLoop buf s e (buf.length + 1) p

/-- Header offsets 0, 4, 8, ..., 60 enumerated by the for loop of
tryRecordSize. -/
def headerOffsets : List Nat := (List.range 16).map (· * 4)

/-- tryRecordSize: scan every header offset, keep the run that is
strictly longer than the best so far together with its offset. -/
def tryRecordSize (buf : List Nat) (s : Nat) (e : Endianness) :
    List PDLObject × Nat :=
  headerOffsets.foldl
    (fun best h =>
      let objects := scanFrom buf s e h
      if best.1.length < objects.length then (objects, h) else best)
    ([], 0)

/-- Candidate record sizes tried by main, in order. -/
def candidateRecordSizes : List Nat := [16, 20, 24, 32]

/-- Outcome tracked by the selection loop of main: best objects so far,
detected record size, detected header size, detected endianness. -/
structure BestResult where
  objects : List PDLObject
  size : Nat
  header : Nat
  endian : Endianness
deriving DecidableEq, Repr

/-- The Parse Candidate produced by one (size, order) evaluation. -/
def cand (buf : List Nat) (s : Nat) (e : Endianness) : BestResult :=
  ⟨(tryRecordSize buf s e).1, s, (tryRecordSize buf s e).2, e⟩

/-- All evaluated Parse Candidates in enumeration order: record sizes in
listed order, big endian before little endian within each size. -/
def enumCands (buf : List Nat) : List BestResult :=
  [cand buf 16 .Big, cand buf 16 .Little,
   cand buf 20 .Big, cand buf 20 .Little,
   cand buf 24 .Big, cand buf 24 .Little,
   cand buf 32 .Big, cand buf 32 .Little]

/-- The Global Selector: the selection loop of main, starting from the
empty result with size 0, replacing the best only on strictly greater
record count; big endian of each size is tested before little endian. -/
def selectBest (buf : List Nat) : BestResult :=
  candidateRecordSizes.foldl
    (fun best s =>
      let be := tryRecordSize buf s .Big
      let le := tryRecordSize buf s .Little
      let best1 :=
        if best.objects.length < be.1.length then ⟨be.1, s, be.2, .Big⟩
        else best
      if best1.objects.length < le.1.length then ⟨le.1, s, le.2, .Little⟩
      else best1)
    ⟨[], 0, 0, .Big⟩

lemma scanLoop_out (buf : List Nat) (s : Nat) (e : Endianness) (f p : Nat)
    (h : ¬ p + s ≤ buf.length) : scanLoop buf s e f p = [] := by
  cases f with
  | zero => rfl
  | succ f => simp [scanLoop, h]

lemma scanLoop_congr (buf : List Nat) (s : Nat) (e : Endianness) (hs : 0 < s) :
    ∀ f₁ f₂ p, buf.length + 1 - p ≤ f₁ → buf.length + 1 - p ≤ f₂ →
      scanLoop buf s e f₁ p = scanLoop buf s e f₂ p := by
  intro f₁
  induction f₁ with
  | zero =>
    intro f₂ p h₁ h₂
    rw [scanLoop_out buf s e 0 p (by omega), scanLoop_out buf s e f₂ p (by omega)]
  | succ f₁ ih =>
    intro f₂ p h₁ h₂
    match f₂ with
    | 0 =>
      rw [scanLoop_out buf s e _ p (by omega), scanLoop_out buf s e 0 p (by omega)]
    | f₂ + 1 =>
      simp only [scanLoop]
      split
      · split
        · rw [ih f₂ (p + s) (by omega) (by omega)]
        · rfl
      · rfl

lemma scanFrom_step (buf : List Nat) (s : Nat) (e : Endianness) (hs : 0 < s)
    (p : Nat) :
    scanFrom buf s e p =
      if p + s ≤ buf.length then
        if recordPlausible (decodeAt buf e p) then
          decodeAt buf e p :: scanFrom buf s e (p + s)
        else []
      else [] := by
  unfold scanFrom
  rw [scanLoop]
  split
  · split
    · rw [scanLoop_congr buf s e hs buf.length (buf.length + 1) (p + s)
        (by omega) (by omega)]
    · rfl
  · rfl

/-- Selection fold shared by tryRecordSize and the loop of main: walk the
candidates, replacing the best so far only when the score is strictly
greater. -/
def selMax {α : Type} (f : α → Nat) : α → List α → α
  | b, [] => b
  | b, c :: cs => selMax f (if f b < f c then c else b) cs

/-- Behaviour of the strict-greater selection fold: either nothing beats
the initial value and it is returned, or the result is the earliest
element of the list that strictly beats the initial value and every later
element does not exceed it, while every earlier element is strictly below
it. -/
lemma selMax_spec {α : Type} (f : α → Nat) :
    ∀ (l : List α) (b : α),
      (selMax f b l = b ∧ ∀ x ∈ l, f x ≤ f b) ∨
      (∃ l₁ r l₂, l = l₁ ++ r :: l₂ ∧ selMax f b l = r ∧ f b < f r ∧
        (∀ x ∈ l₁, f x < f r) ∧ (∀ x ∈ l₂, f x ≤ f r)) := by
  intro l
  induction l with
  | nil => intro b; exact Or.inl ⟨rfl, by simp⟩
  | cons c cs ih =>
    intro b
    rw [selMax]
    by_cases hbc : f b < f c
    · rw [if_pos hbc]
      rcases ih c with ⟨h1, h2⟩ | ⟨l₁, r, l₂, hsplit, hres, hlt, hpre, hpost⟩
      · exact Or.inr ⟨[], c, cs, by simp, h1, hbc, by simp, h2⟩
      · refine Or.inr ⟨c :: l₁, r, l₂, by rw [hsplit]; rfl, hres,
          lt_trans hbc hlt, ?_, hpost⟩
        intro x hx
        rcases List.mem_cons.mp hx with hx | hx
        · exact hx ▸ hlt
        · exact hpre x hx
    · rw [if_neg hbc]
      push_neg at hbc
      rcases ih b with ⟨h1, h2⟩ | ⟨l₁, r, l₂, hsplit, hres, hlt, hpre, hpost⟩
      · refine Or.inl ⟨h1, ?_⟩
        intro x hx
        rcases List.mem_cons.mp hx with hx | hx
        · exact hx ▸ hbc
        · exact h2 x hx
      · refine Or.inr ⟨c :: l₁, r, l₂, by rw [hsplit]; rfl, hres, hlt, ?_, hpost⟩
        intro x hx
        rcases List.mem_cons.mp hx with hx | hx
        · exact hx ▸ lt_of_le_of_lt hbc hlt
        · exact hpre x hx

lemma tryRecordSize_eq_selMax (buf : List Nat) (s : Nat) (e : Endianness) :
    tryRecordSize buf s e =
      selMax (fun pr => pr.1.length) ([], 0)
        (headerOffsets.map (fun h => (scanFrom buf s e h, h))) := by
  rfl

lemma selectBest_eq_selMax (buf : List Nat) :
    selectBest buf =
      selMax (fun c => c.objects.length) ⟨[], 0, 0, .Big⟩ (enumCands buf) := by
  rfl

lemma map_eq_append_cons {α β : Type} (g : α → β) :
    ∀ (L : List α) (l₁ : List β) (r : β) (l₂ : List β),
      L.map g = l₁ ++ r :: l₂ →
      ∃ L₁ a L₂, L = L₁ ++ a :: L₂ ∧ g a = r ∧ L₁.map g = l₁ ∧ L₂.map g = l₂ := by
  intro L
  induction L with
  | nil => intro l₁ r l₂ h; simp at h
  | cons x L ih =>
    intro l₁ r l₂ h
    cases l₁ with
    | nil =>
      simp only [List.map_cons, List.nil_append] at h
      injection h with h1 h2
      exact ⟨[], x, L, rfl, h1, rfl, h2⟩
    | cons y l₁ =>
      simp only [List.map_cons, List.cons_append] at h
      injection h with h1 h2
      obtain ⟨L₁, a, L₂, hL, hga, hm1, hm2⟩ := ih l₁ r l₂ h2
      exact ⟨x :: L₁, a, L₂, by rw [hL]; rfl, hga, by simp [hm1, h1], hm2⟩

/-- Full behaviour of tryRecordSize: the reported header offset is one of
the enumerated ones, the returned run is the scan at that offset, no
offset produces a longer run, and every smaller offset produces a
strictly shorter run. -/
lemma tryRecordSize_spec (buf : List Nat) (s : Nat) (e : Endianness) :
    (tryRecordSize buf s e).2 ∈ headerOffsets ∧
    (tryRecordSize buf s e).1 = scanFrom buf s e (tryRecordSize buf s e).2 ∧
    (∀ h ∈ headerOffsets,
      (scanFrom buf s e h).length ≤ (tryRecordSize buf s e).1.length) ∧
    (∀ h ∈ headerOffsets, h < (tryRecordSize buf s e).2 →
      (scanFrom buf s e h).length < (tryRecordSize buf s e).1.length) := by
  rw [tryRecordSize_eq_selMax]
  rcases selMax_spec (fun pr : List PDLObject × Nat => pr.1.length)
      (headerOffsets.map (fun h => (scanFrom buf s e h, h))) ([], 0) with
    ⟨h1, h2⟩ | ⟨l₁, r, l₂, hsplit, hres, hlt, hpre, hpost⟩
  · rw [h1]
    have h0 : (scanFrom buf s e 0).length ≤ 0 :=
      h2 (scanFrom buf s e 0, 0) (List.mem_map.mpr ⟨0, by decide, rfl⟩)
    refine ⟨by decide, ?_, ?_, ?_⟩
    · show ([] : List PDLObject) = scanFrom buf s e 0
      exact (List.length_eq_zero.mp (by omega)).symm
    · intro h hh
      simpa using h2 (scanFrom buf s e h, h) (List.mem_map.mpr ⟨h, hh, rfl⟩)
    · intro h hh hcontra
      simp at hcontra
  · obtain ⟨L₁, a, L₂, hH, hga, hm1, hm2⟩ :=
      map_eq_append_cons _ headerOffsets l₁ r l₂ hsplit
    rw [hres, ← hga]
    have hsorted : List.Pairwise (· < ·) headerOffsets := by decide
    rw [hH] at hsorted
    obtain ⟨-, hp2, -⟩ := List.pairwise_append.mp hsorted
    have hafter : ∀ x ∈ L₂, a < x := (List.pairwise_cons.mp hp2).1
    have hmax : ∀ h ∈ headerOffsets,
        (scanFrom buf s e h).length ≤ (scanFrom buf s e a).length := by
      intro h hh
      rw [hH] at hh
      rcases List.mem_append.mp hh with hh | hh
      · have : (scanFrom buf s e h, h) ∈ l₁ := by
          rw [← hm1]; exact List.mem_map.mpr ⟨h, hh, rfl⟩
        have := hpre _ this
        rw [← hga] at this
        exact le_of_lt this
      · rcases List.mem_cons.mp hh with hh | hh
        · rw [hh]
        · have : (scanFrom buf s e h, h) ∈ l₂ := by
            rw [← hm2]; exact List.mem_map.mpr ⟨h, hh, rfl⟩
          have := hpost _ this
          rw [← hga] at this
          exact this
    refine ⟨?_, rfl, hmax, ?_⟩
    · rw [hH]
      exact List.mem_append.mpr (Or.inr (List.mem_cons_self a L₂))
    · intro h hh hlta
      rw [hH] at hh
      rcases List.mem_append.mp hh with hh | hh
      · have : (scanFrom buf s e h, h) ∈ l₁ := by
          rw [← hm1]; exact List.mem_map.mpr ⟨h, hh, rfl⟩
        have := hpre _ this
        rw [← hga] at this
        exact this
      · rcases List.mem_cons.mp hh with hh | hh
        · omega
        · exact absurd hlta (by have := hafter h hh; omega)

/-- Offset structure of a scan: the record at index i of the run starting
at p begins at byte p + i * s. -/
lemma scanFrom_getD_offset (buf : List Nat) (s : Nat) (e : Endianness)
    (hs : 0 < s) :
    ∀ i p, i < (scanFrom buf s e p).length →
      ((scanFrom buf s e p).getD i ⟨0, 0, 0, 0, 0⟩).offset = p + i * s := by
  intro i
  induction i with
  | zero =>
    intro p hp
    rw [scanFrom_step buf s e hs p] at hp ⊢
    by_cases hb : p + s ≤ buf.length
    · rw [if_pos hb] at hp ⊢
      by_cases hpl : recordPlausible (decodeAt buf e p) = true
      · rw [if_pos hpl]
        simp [decodeAt]
      · rw [if_neg hpl] at hp
        simp at hp
    · rw [if_neg hb] at hp
      simp at hp
  | succ i ih =>
    intro p hp
    rw [scanFrom_step buf s e hs p] at hp ⊢
    by_cases hb : p + s ≤ buf.length
    · rw [if_pos hb] at hp ⊢
      by_cases hpl : recordPlausible (decodeAt buf e p) = true
      · rw [if_pos hpl] at hp ⊢
        rw [List.getD_cons_succ]
        rw [ih (p + s) (by simpa using hp)]
        ring
      · rw [if_neg hpl] at hp
        simp at hp
    · rw [if_neg hb] at hp
      simp at hp

/-- Full behaviour of the loop of main: either no candidate produces any
record and the initial empty result with size 0 survives, or the result
is the earliest candidate in enumeration order with a nonzero record
count that no other candidate strictly exceeds. -/
lemma selectBest_spec (buf : List Nat) :
    (selectBest buf = ⟨[], 0, 0, .Big⟩ ∧
      ∀ c ∈ enumCands buf, c.objects.length = 0) ∨
    (∃ pre post, enumCands buf = pre ++ selectBest buf :: post ∧
      0 < (selectBest buf).objects.length ∧
      (∀ c ∈ pre, c.objects.length < (selectBest buf).objects.length) ∧
      (∀ c ∈ post, c.objects.length ≤ (selectBest buf).objects.length)) := by
  rw [selectBest_eq_selMax]
  rcases selMax_spec (fun c : BestResult => c.objects.length) (enumCands buf)
      ⟨[], 0, 0, .Big⟩ with ⟨h1, h2⟩ | ⟨l₁, r, l₂, hsplit, hres, hlt, hpre, hpost⟩
  · left
    rw [h1]
    exact ⟨rfl, fun c hc => by simpa using h2 c hc⟩
  · right
    rw [hres]
    exact ⟨l₁, l₂, hsplit, by simpa using hlt, hpre, hpost⟩

/-- Serialization of a 32-bit value most significant byte first, the
inverse the round-trip property of the spec describes. -/
def toBytesBE (v : Nat) : List Nat :=
  [v / 2 ^ 24 % 256, v / 2 ^ 16 % 256, v / 2 ^ 8 % 256, v % 256]

/-- Serialization of a 32-bit value least significant byte first. -/
def toBytesLE (v : Nat) : List Nat :=
  [v % 256, v / 2 ^ 8 % 256, v / 2 ^ 16 % 256, v / 2 ^ 24 % 256]

/-- Serialization dispatched on byte order. -/
def toBytes (e : Endianness) (v : Nat) : List Nat :=
  match e with
  | .Big => toBytesBE v
  | .Little => toBytesLE v

/-- Encoding of the four record fields in fixed order: id then x, y, z,
four bytes each, as in the round-trip property of the spec. -/
def encodeRecord (e : Endianness) (t x y z : Nat) : List Nat :=
  toBytes e t ++ toBytes e x ++ toBytes e y ++ toBytes e z

lemma shiftLeft_lor_eq_add (x y n : Nat) (hy : y < 2 ^ n) :
    x <<< n ||| y = x * 2 ^ n + y := by
  apply Nat.eq_of_testBit_eq
  intro i
  rw [Nat.testBit_or, Nat.testBit_shiftLeft]
  rcases Nat.lt_or_ge i n with hi | hi
  · have hd : ¬ i ≥ n := by omega
    rw [decide_eq_false hd, Bool.false_and, Bool.false_or]
    rw [Nat.testBit_to_div_mod, Nat.testBit_to_div_mod]
    have hsplit : 2 ^ n = 2 ^ (n - i) * 2 ^ i := by
      rw [← pow_add]
      congr 1
      omega
    have hdiv : (x * 2 ^ n + y) / 2 ^ i = y / 2 ^ i + x * 2 ^ (n - i) := by
      rw [hsplit, ← Nat.mul_assoc, Nat.add_comm,
        Nat.add_mul_div_right _ _ (Nat.two_pow_pos i)]
    rw [hdiv]
    have h2 : 2 ^ (n - i) = 2 ^ (n - i - 1) * 2 := by
      rw [← pow_succ]
      congr 1
      omega
    rw [h2, ← Nat.mul_assoc, Nat.add_mul_mod_self_right]
  · rw [decide_eq_true hi, Bool.true_and]
    have hyf : y.testBit i = false :=
      Nat.testBit_lt_two_pow
        (lt_of_lt_of_le hy (Nat.pow_le_pow_right (by omega) hi))
    rw [hyf, Bool.or_false]
    rw [Nat.testBit_to_div_mod, Nat.testBit_to_div_mod]
    have hdiv : (x * 2 ^ n + y) / 2 ^ i = x / 2 ^ (i - n) := by
      have hsplit : 2 ^ i = 2 ^ n * 2 ^ (i - n) := by
        rw [← pow_add]
        congr 1
        omega
      rw [hsplit, ← Nat.div_div_eq_div_mul, Nat.add_comm,
        Nat.add_mul_div_right _ _ (Nat.two_pow_pos n),
        Nat.div_eq_of_lt hy, Nat.zero_add]
    rw [hdiv]

lemma byteAt_lt (buf : List Nat) (i : Nat) : byteAt buf i < 256 :=
  Nat.mod_lt _ (by norm_num)

lemma readBEUInt32_eq (buf : List Nat) (p : Nat) :
    readBEUInt32 buf p =
      byteAt buf p * 2 ^ 24 + byteAt buf (p + 1) * 2 ^ 16 +
        byteAt buf (p + 2) * 2 ^ 8 + byteAt buf (p + 3) := by
  have h0 := byteAt_lt buf p
  have h1 := byteAt_lt buf (p + 1)
  have h2 := byteAt_lt buf (p + 2)
  have h3 := byteAt_lt buf (p + 3)
  unfold readBEUInt32
  rw [Nat.or_assoc, Nat.or_assoc]
  rw [shiftLeft_lor_eq_add (byteAt buf (p + 2)) _ 8 (by omega)]
  rw [shiftLeft_lor_eq_add (byteAt buf (p + 1)) _ 16 (by norm_num; omega)]
  rw [shiftLeft_lor_eq_add (byteAt buf p) _ 24 (by norm_num; omega)]
  ring

lemma readLEUInt32_eq (buf : List Nat) (p : Nat) :
    readLEUInt32 buf p =
      byteAt buf (p + 3) * 2 ^ 24 + byteAt buf (p + 2) * 2 ^ 16 +
        byteAt buf (p + 1) * 2 ^ 8 + byteAt buf p := by
  have h0 := byteAt_lt buf p
  have h1 := byteAt_lt buf (p + 1)
  have h2 := byteAt_lt buf (p + 2)
  have h3 := byteAt_lt buf (p + 3)
  unfold readLEUInt32
  rw [Nat.or_assoc, Nat.or_assoc]
  rw [shiftLeft_lor_eq_add (byteAt buf (p + 1)) _ 8 (by omega)]
  rw [shiftLeft_lor_eq_add (byteAt buf (p + 2)) _ 16 (by norm_num; omega)]
  rw [shiftLeft_lor_eq_add (byteAt buf (p + 3)) _ 24 (by norm_num; omega)]
  ring

lemma abs_floatValQ (w : Nat) :
    |floatValQ w| = (floatSigNat w : ℚ) / 2 ^ 150 := by
  have h150 : |(2 : ℚ) ^ 150| = 2 ^ 150 := abs_of_nonneg (by positivity)
  unfold floatValQ
  by_cases hsign : w / 2 ^ 31 % 2 = 1
  · rw [if_pos hsign, abs_div, abs_mul, abs_neg, abs_one, one_mul,
      Nat.abs_cast, h150]
  · rw [if_neg hsign, one_mul, abs_div, Nat.abs_cast, h150]

/-- Bridge between the bit-level plausibility check and the exact value
of the decoded float: the check succeeds exactly on finite values of
magnitude strictly below 100000. -/
lemma isReasonableCoord_iff (w : Nat) :
    isReasonableCoord w = true ↔
      floatExp w ≠ 255 ∧ |floatValQ w| < 100000 := by
  unfold isReasonableCoord
  by_cases h255 : floatExp w = 255
  · simp [h255]
  · rw [if_neg h255]
    simp only [decide_eq_true_eq]
    rw [abs_floatValQ w, div_lt_iff₀ (by positivity),
      show ((100000 : ℚ) * 2 ^ 150) = ((100000 * 2 ^ 150 : Nat) : ℚ) by
        push_cast; ring,
      Nat.cast_lt]
    simp [h255]

lemma readBE_toBytesBE (v : Nat) (hv : v < 2 ^ 32) :
    readBEUInt32 (toBytesBE v) 0 = v := by
  rw [readBEUInt32_eq]
  have b0 : byteAt (toBytesBE v) 0 = v / 2 ^ 24 % 256 % 256 := rfl
  have b1 : byteAt (toBytesBE v) (0 + 1) = v / 2 ^ 16 % 256 % 256 := rfl
  have b2 : byteAt (toBytesBE v) (0 + 2) = v / 2 ^ 8 % 256 % 256 := rfl
  have b3 : byteAt (toBytesBE v) (0 + 3) = v % 256 % 256 := rfl
  rw [b0, b1, b2, b3]
  omega

lemma readLE_toBytesLE (v : Nat) (hv : v < 2 ^ 32) :
    readLEUInt32 (toBytesLE v) 0 = v := by
  rw [readLEUInt32_eq]
  have b0 : byteAt (toBytesLE v) 0 = v % 256 % 256 := rfl
  have b1 : byteAt (toBytesLE v) (0 + 1) = v / 2 ^ 8 % 256 % 256 := rfl
  have b2 : byteAt (toBytesLE v) (0 + 2) = v / 2 ^ 16 % 256 % 256 := rfl
  have b3 : byteAt (toBytesLE v) (0 + 3) = v / 2 ^ 24 % 256 % 256 := rfl
  rw [b0, b1, b2, b3]
  omega

lemma readUInt32_toBytes (e : Endianness) (v : Nat) (hv : v < 2 ^ 32) :
    readUInt32 e (toBytes e v) 0 = v := by
  cases e
  · exact readBE_toBytesBE v hv
  · exact readLE_toBytesLE v hv

lemma readUInt32_block0 (e : Endianness) (v : Nat) (rest : List Nat) :
    readUInt32 e (toBytes e v ++ rest) 0 = readUInt32 e (toBytes e v) 0 := by
  cases e <;> rfl

lemma readUInt32_block4 (e : Endianness) (v : Nat) (rest : List Nat) :
    readUInt32 e (toBytes e v ++ rest) 4 = readUInt32 e rest 0 := by
  cases e <;> rfl

lemma readUInt32_block8 (e : Endianness) (v : Nat) (rest : List Nat) :
    readUInt32 e (toBytes e v ++ rest) 8 = readUInt32 e rest 4 := by
  cases e <;> rfl

lemma readUInt32_block12 (e : Endianness) (v : Nat) (rest : List Nat) :
    readUInt32 e (toBytes e v ++ rest) 12 = readUInt32 e rest 8 := by
  cases e <;> rfl

lemma decode_encode (e : Endianness) (t x y z : Nat) (ht : t < 2 ^ 32)
    (hx : x < 2 ^ 32) (hy : y < 2 ^ 32) (hz : z < 2 ^ 32) :
    decodeAt (encodeRecord e t x y z) e 0 = ⟨t, x, y, z, 0⟩ := by
  have hassoc : encodeRecord e t x y z =
      toBytes e t ++ (toBytes e x ++ (toBytes e y ++ toBytes e z)) := by
    simp [encodeRecord, List.append_assoc]
  unfold decodeAt
  rw [hassoc]
  simp only [PDLObject.mk.injEq]
  refine ⟨?_, ?_, ?_, ?_, trivial⟩
  · rw [readUInt32_block0, readUInt32_toBytes e t ht]
  · show readUInt32 e _ (0 + 4) = x
    rw [show (0 + 4 = 4) from rfl, readUInt32_block4, readUInt32_block0,
      readUInt32_toBytes e x hx]
  · show readUInt32 e _ (0 + 8) = y
    rw [show (0 + 8 = 8) from rfl, readUInt32_block8, readUInt32_block4,
      readUInt32_block0, readUInt32_toBytes e y hy]
  · show readUInt32 e _ (0 + 12) = z
    rw [show (0 + 12 = 12) from rfl, readUInt32_block12, readUInt32_block8,
      readUInt32_block4, readUInt32_toBytes e z hz]

lemma readUInt32_congr (e : Endianness) (buf1 buf2 : List Nat) (q : Nat)
    (h : ∀ k, k < 4 → byteAt buf1 (q + k) = byteAt buf2 (q + k)) :
    readUInt32 e buf1 q = readUInt32 e buf2 q := by
  have h0 : byteAt buf1 q = byteAt buf2 q := by simpa using h 0 (by omega)
  have h1 := h 1 (by omega)
  have h2 := h 2 (by omega)
  have h3 := h 3 (by omega)
  cases e <;> simp [readUInt32, readBEUInt32, readLEUInt32, h0, h1, h2, h3]

lemma scanFrom_empty_of_short (buf : List Nat) (s : Nat) (e : Endianness)
    (p : Nat) (hs : 16 ≤ s) (hlen : buf.length < 16) :
    scanFrom buf s e p = [] := by
  rw [scanFrom_step buf s e (by omega) p, if_neg (by omega)]

lemma tryRecordSize_empty_of_short (buf : List Nat) (s : Nat) (e : Endianness)
    (hs : 16 ≤ s) (hlen : buf.length < 16) :
    (tryRecordSize buf s e).1 = [] := by
  have hspec := (tryRecordSize_spec buf s e).2.1
  rw [hspec, scanFrom_empty_of_short buf s e _ hs hlen]

/-- C1: when at least one evaluated Parse Candidate yields a record, the
Global Selector returns one of the candidates (the enumeration order of
enumCands is: record sizes 16, 20, 24, 32 in listed order, big endian
before little endian within each size); every candidate enumerated before
the returned one has a strictly smaller record count and no candidate
enumerated after it has a larger one, so the returned candidate has
maximal record count and on ties the earliest enumerated wins. -/
theorem globalSelector_first_max (buf : List Nat)
    (h : ∃ c ∈ enumCands buf, c.objects ≠ []) :
    ∃ pre post, enumCands buf = pre ++ selectBest buf :: post ∧
      (∀ c ∈ pre, c.objects.length < (selectBest buf).objects.length) ∧
      (∀ c ∈ post, c.objects.length ≤ (selectBest buf).objects.length) := by
  rcases selectBest_spec buf with ⟨h1, h2⟩ | ⟨pre, post, hsplit, hpos, hpre, hpost⟩
  · obtain ⟨c, hc, hne⟩ := h
    exact absurd (List.length_eq_zero.mp (h2 c hc)) hne
  · exact ⟨pre, post, hsplit, hpre, hpost⟩

/-- Witness for C1 on a concrete 48-byte all-zero buffer, where the size
16 big endian candidate wins with 3 records. -/
theorem globalSelector_first_max_witness :
    ∃ pre post, enumCands (List.replicate 48 0) =
        pre ++ selectBest (List.replicate 48 0) :: post ∧
      (∀ c ∈ pre, c.objects.length <
        (selectBest (List.replicate 48 0)).objects.length) ∧
      (∀ c ∈ post, c.objects.length ≤
        (selectBest (List.replicate 48 0)).objects.length) :=
  globalSelector_first_max (List.replicate 48 0)
    ⟨cand (List.replicate 48 0) 16 .Big, List.mem_cons_self _ _, by decide⟩

/-- C2: for any buffer, record size at least 16, header offset and byte
order, if the N records at offsets h, h + s, ..., h + (N-1)s decode as
plausible and the record at h + N * s decodes as implausible (all within
bounds), the scan returns exactly those first N records, regardless of
the bytes after the break point. -/
theorem scan_stops_at_first_implausible (buf : List Nat) (s h N : Nat)
    (e : Endianness) (hs : 16 ≤ s)
    (hbound : h + N * s + s ≤ buf.length)
    (hplaus : ∀ i, i < N → recordPlausible (decodeAt buf e (h + i * s)) = true)
    (hbreak : recordPlausible (decodeAt buf e (h + N * s)) = false) :
    scanFrom buf s e h =
      (List.range N).map (fun i => decodeAt buf e (h + i * s)) := by
  induction N generalizing h with
  | zero =>
    rw [scanFrom_step buf s e (by omega) h, if_pos (by omega)]
    have hb : recordPlausible (decodeAt buf e h) = false := by
      simpa using hbreak
    simp [hb]
  | succ N ih =>
    have hmul : (N + 1) * s = N * s + s := by ring
    have hstep : h + s ≤ buf.length := by omega
    rw [scanFrom_step buf s e (by omega) h, if_pos hstep]
    have h0 : recordPlausible (decodeAt buf e h) = true := by
      have := hplaus 0 (by omega)
      simpa using this
    rw [if_pos h0]
    have ihres := ih (h + s) (by omega)
      (fun i hi => by
        rw [show h + s + i * s = h + (i + 1) * s by ring]
        exact hplaus (i + 1) (by omega))
      (by
        rw [show h + s + N * s = h + (N + 1) * s by ring]
        exact hbreak)
    rw [ihres, List.range_succ_eq_map, List.map_cons, List.map_map,
      List.cons_eq_cons]
    constructor
    · simp
    · refine List.map_congr_left fun a _ => ?_
      simp only [Function.comp_apply]
      congr 1
      rw [Nat.succ_mul]
      ring

/-- Witness for C2: one plausible all-zero record followed by a record
whose x coordinate is big endian infinity stops the scan after exactly
one record. -/
theorem scan_stops_at_first_implausible_witness :
    scanFrom
        (List.replicate 16 0 ++
          [0, 0, 0, 0, 127, 128, 0, 0, 0, 0, 0, 0, 0, 0, 0, 0]) 16 .Big 0 =
      (List.range 1).map
        (fun i =>
          decodeAt
            (List.replicate 16 0 ++
              [0, 0, 0, 0, 127, 128, 0, 0, 0, 0, 0, 0, 0, 0, 0, 0]) .Big
            (0 + i * 16)) :=
  scan_stops_at_first_implausible _ 16 0 1 .Big (by omega) (by decide)
    (by decide) (by decide)

/-- C3: tryRecordSize evaluates exactly the 16 header offsets 0, 4, ...,
60; it returns the scan of the reported offset, no enumerated offset
yields a longer run, and every smaller enumerated offset yields a
strictly shorter run, so the reported offset is the smallest one with
the maximal run length. -/
theorem tryRecordSize_best_offset (buf : List Nat) (s : Nat) (e : Endianness) :
    headerOffsets =
      [0, 4, 8, 12, 16, 20, 24, 28, 32, 36, 40, 44, 48, 52, 56, 60] ∧
    (tryRecordSize buf s e).2 ∈ headerOffsets ∧
    (tryRecordSize buf s e).1 = scanFrom buf s e (tryRecordSize buf s e).2 ∧
    (∀ h ∈ headerOffsets,
      (scanFrom buf s e h).length ≤ (tryRecordSize buf s e).1.length) ∧
    (∀ h ∈ headerOffsets, h < (tryRecordSize buf s e).2 →
      (scanFrom buf s e h).length < (tryRecordSize buf s e).1.length) :=
  ⟨by decide, (tryRecordSize_spec buf s e).1, (tryRecordSize_spec buf s e).2.1,
    (tryRecordSize_spec buf s e).2.2.1, (tryRecordSize_spec buf s e).2.2.2⟩

/-- Witness for C3 at a concrete buffer, size and order. -/
theorem tryRecordSize_best_offset_witness :
    (tryRecordSize [] 16 .Big).2 ∈ headerOffsets ∧
    (scanFrom [] 16 .Big 4).length ≤ (tryRecordSize [] 16 .Big).1.length :=
  ⟨(tryRecordSize_best_offset [] 16 .Big).2.1,
    (tryRecordSize_best_offset [] 16 .Big).2.2.2.1 4 (by decide)⟩

/-- C4: the plausibility oracle accepts a bit pattern exactly when it is
finite with exact magnitude strictly below 100000; the pattern of
100000.0f (0x47C35000, exact value 100000) is rejected, the pattern
0x47C34FFF (the largest float below 100000, exact value 99999.9921875,
the single-precision rounding of 99999.99) is accepted; and a record is
plausible exactly when all three coordinates individually pass. -/
theorem plausibility_threshold_exclusive :
    (∀ w, isReasonableCoord w = true ↔
      floatExp w ≠ 255 ∧ |floatValQ w| < 100000) ∧
    floatValQ 0x47C35000 = 100000 ∧
    isReasonableCoord 0x47C35000 = false ∧
    floatValQ 0x47C34FFF = 99999 + 127 / 128 ∧
    isReasonableCoord 0x47C34FFF = true ∧
    (∀ r : PDLObject, recordPlausible r = true ↔
      (isReasonableCoord r.x = true ∧ isReasonableCoord r.y = true ∧
        isReasonableCoord r.z = true)) := by
  refine ⟨isReasonableCoord_iff, ?_, by decide, ?_, by decide, ?_⟩
  · norm_num [floatValQ, floatSigNat, floatExp, floatFrac]
  · norm_num [floatValQ, floatSigNat, floatExp, floatFrac]
  · intro r
    simp [recordPlausible, and_assoc]

/-- Witness for C4: 100.0f (pattern 0x42C80000) is accepted, through the
exact-value characterization. -/
theorem plausibility_threshold_exclusive_witness :
    isReasonableCoord 0x42C80000 = true := by
  apply (plausibility_threshold_exclusive.1 0x42C80000).mpr
  constructor
  · decide
  · rw [abs_floatValQ]
    norm_num [floatSigNat, floatExp, floatFrac]

/-- C5: serializing a 32-bit value in a byte order and reading it back
with the matching reader restores the value, and encoding the four
record fields (id, x, y, z, four bytes each, in order) then decoding at
offset 0 with the matching order restores all fields bit-for-bit. -/
theorem readUInt32_roundtrip (e : Endianness) (v t x y z : Nat)
    (hv : v < 2 ^ 32) (ht : t < 2 ^ 32) (hx : x < 2 ^ 32) (hy : y < 2 ^ 32)
    (hz : z < 2 ^ 32) :
    readBEUInt32 (toBytesBE v) 0 = v ∧
    readLEUInt32 (toBytesLE v) 0 = v ∧
    readUInt32 e (toBytes e v) 0 = v ∧
    decodeAt (encodeRecord e t x y z) e 0 = ⟨t, x, y, z, 0⟩ :=
  ⟨readBE_toBytesBE v hv, readLE_toBytesLE v hv, readUInt32_toBytes e v hv,
    decode_encode e t x y z ht hx hy hz⟩

/-- Witness for C5 at concrete field values. -/
theorem readUInt32_roundtrip_witness :
    readBEUInt32 (toBytesBE 0x01020304) 0 = 0x01020304 ∧
    readLEUInt32 (toBytesLE 0x01020304) 0 = 0x01020304 ∧
    readUInt32 .Little (toBytes .Little 0x01020304) 0 = 0x01020304 ∧
    decodeAt (encodeRecord .Little 3437124069 1 2 3) .Little 0 =
      ⟨3437124069, 1, 2, 3, 0⟩ :=
  readUInt32_roundtrip .Little 0x01020304 3437124069 1 2 3 (by norm_num)
    (by norm_num) (by norm_num) (by norm_num) (by norm_num)

/-- C6: when the buffer is shorter than 16 bytes, or more generally when
every evaluated candidate yields zero records, the selection loop of
main ends with the initial result: detected record size 0, detected
header 0 and an empty record sequence (a normal outcome, the function is
total). -/
theorem no_match_empty_result (buf : List Nat)
    (h : buf.length < 16 ∨ ∀ c ∈ enumCands buf, c.objects = []) :
    selectBest buf = ⟨[], 0, 0, .Big⟩ := by
  have hall : ∀ c ∈ enumCands buf, c.objects.length = 0 := by
    rcases h with hlen | hempty
    · have key : ∀ s e, 16 ≤ s → (cand buf s e).objects.length = 0 := by
        intro s e hs
        show (tryRecordSize buf s e).1.length = 0
        rw [tryRecordSize_empty_of_short buf s e hs hlen]
        rfl
      intro c hc
      simp only [enumCands, List.mem_cons, List.not_mem_nil, or_false] at hc
      rcases hc with rfl | rfl | rfl | rfl | rfl | rfl | rfl | rfl <;>
        exact key _ _ (by omega)
    · intro c hc
      rw [hempty c hc]
      rfl
  rcases selectBest_spec buf with ⟨h1, _⟩ | ⟨pre, post, hsplit, hpos, _, _⟩
  · exact h1
  · exfalso
    have hmem : selectBest buf ∈ enumCands buf := by
      rw [hsplit]
      exact List.mem_append.mpr (Or.inr (List.mem_cons_self _ _))
    have := hall _ hmem
    omega

/-- Witness for C6 on a 3-byte buffer. -/
theorem no_match_empty_result_witness :
    selectBest [1, 2, 3] = ⟨[], 0, 0, .Big⟩ :=
  no_match_empty_result [1, 2, 3] (Or.inl (by decide))

/-- C7: the type classifier is total with a nonempty name for every
input: the two known ids map to their names and every other value maps
to the fallback. -/
theorem getTypeName_total :
    getTypeName 3437124069 = "Vehicle" ∧
    getTypeName 1462988517 = "Road" ∧
    (∀ t, t ≠ 3437124069 → t ≠ 1462988517 → getTypeName t = "Object") ∧
    (∀ t, getTypeName t ≠ "") := by
  refine ⟨rfl, rfl, ?_, ?_⟩
  · intro t h1 h2
    unfold getTypeName
    rw [if_neg h1, if_neg h2]
  · intro t
    unfold getTypeName
    split
    · decide
    · split
      · decide
      · decide

/-- Witness for C7 at an unknown id. -/
theorem getTypeName_total_witness :
    getTypeName 7 = "Object" ∧ getTypeName 7 ≠ "" :=
  ⟨getTypeName_total.2.2.1 7 (by decide) (by decide), getTypeName_total.2.2.2 7⟩

/-- C8: in the run returned by tryRecordSize with winning header offset
h, the record at index i carries offset h + i * s, so record offsets are
strictly increasing and the sequence order is buffer order. -/
theorem run_offsets_arithmetic (buf : List Nat) (s : Nat) (e : Endianness)
    (hs : 16 ≤ s) :
    (∀ i, i < (tryRecordSize buf s e).1.length →
      ((tryRecordSize buf s e).1.getD i ⟨0, 0, 0, 0, 0⟩).offset =
        (tryRecordSize buf s e).2 + i * s) ∧
    (∀ i j, i < j → j < (tryRecordSize buf s e).1.length →
      ((tryRecordSize buf s e).1.getD i ⟨0, 0, 0, 0, 0⟩).offset <
        ((tryRecordSize buf s e).1.getD j ⟨0, 0, 0, 0, 0⟩).offset) := by
  have hrun := (tryRecordSize_spec buf s e).2.1
  constructor
  · intro i hi
    rw [hrun] at hi ⊢
    exact scanFrom_getD_offset buf s e (by omega) i _ hi
  · intro i j hij hj
    have hi : i < (tryRecordSize buf s e).1.length := lt_trans hij hj
    rw [hrun] at hi hj ⊢
    rw [scanFrom_getD_offset buf s e (by omega) i _ hi,
      scanFrom_getD_offset buf s e (by omega) j _ hj]
    have := (Nat.mul_lt_mul_right (show 0 < s by omega)).mpr hij
    omega

/-- Witness for C8 on a 16-byte zero buffer, whose run has one record at
offset 0. -/
theorem run_offsets_arithmetic_witness :
    ((tryRecordSize (List.replicate 16 0) 16 .Big).1.getD 0
        ⟨0, 0, 0, 0, 0⟩).offset =
      (tryRecordSize (List.replicate 16 0) 16 .Big).2 + 0 * 16 :=
  (run_offsets_arithmetic (List.replicate 16 0) 16 .Big (by omega)).1 0
    (by decide)

/-- C9: the decoded fields of a record at position p depend only on the
16 bytes at p..p+15 (type from p..p+3, then x, y, z from the following
three 4-byte groups): two buffers agreeing on that window decode the
same record with the same plausibility; bytes of a record past the first
16 only contribute to the stride. -/
theorem decode_window_16 (buf1 buf2 : List Nat) (e : Endianness) (p : Nat)
    (h : ∀ i, i < 16 → byteAt buf1 (p + i) = byteAt buf2 (p + i)) :
    decodeAt buf1 e p = decodeAt buf2 e p ∧
    recordPlausible (decodeAt buf1 e p) =
      recordPlausible (decodeAt buf2 e p) := by
  have e0 := readUInt32_congr e buf1 buf2 p (fun k hk => h k (by omega))
  have e4 := readUInt32_congr e buf1 buf2 (p + 4) (fun k hk => by
    have := h (4 + k) (by omega)
    rwa [← Nat.add_assoc] at this)
  have e8 := readUInt32_congr e buf1 buf2 (p + 8) (fun k hk => by
    have := h (8 + k) (by omega)
    rwa [← Nat.add_assoc] at this)
  have e12 := readUInt32_congr e buf1 buf2 (p + 12) (fun k hk => by
    have := h (12 + k) (by omega)
    rwa [← Nat.add_assoc] at this)
  have hdec : decodeAt buf1 e p = decodeAt buf2 e p := by
    simp [decodeAt, e0, e4, e8, e12]
  exact ⟨hdec, by rw [hdec]⟩

/-- Witness for C9: appending a byte after the 16-byte window does not
change the decoded record. -/
theorem decode_window_16_witness :
    decodeAt (List.replicate 16 0) .Big 0 =
      decodeAt (List.replicate 16 0 ++ [7]) .Big 0 ∧
    recordPlausible (decodeAt (List.replicate 16 0) .Big 0) =
      recordPlausible (decodeAt (List.replicate 16 0 ++ [7]) .Big 0) :=
  decode_window_16 (List.replicate 16 0) (List.replicate 16 0 ++ [7]) .Big 0
    (by decide)

/-- C10: a NaN or infinity coordinate (exponent field 255) always fails
the plausibility test, a record with any such coordinate is implausible,
and the scan stops at such a record exactly as at an out-of-range finite
one. -/
theorem nonfinite_coord_rejected :
    (∀ w, floatExp w = 255 → isReasonableCoord w = false) ∧
    (∀ r : PDLObject,
      floatExp r.x = 255 ∨ floatExp r.y = 255 ∨ floatExp r.z = 255 →
      recordPlausible r = false) ∧
    (∀ buf s e p, 0 < s → p + s ≤ List.length buf →
      recordPlausible (decodeAt buf e p) = false →
      scanFrom buf s e p = []) := by
  have h1 : ∀ w, floatExp w = 255 → isReasonableCoord w = false := by
    intro w hw
    unfold isReasonableCoord
    rw [if_pos hw]
  refine ⟨h1, ?_, ?_⟩
  · intro r hr
    unfold recordPlausible
    rcases hr with hx | hy | hz
    · rw [h1 _ hx]
      simp
    · rw [h1 _ hy]
      simp
    · rw [h1 _ hz]
      simp
  · intro buf s e p hs hb himpl
    rw [scanFrom_step buf s e hs p, if_pos hb]
    simp [himpl]

/-- Witness for C10: the canonical quiet NaN and infinity patterns are
rejected, and a buffer whose first record has a NaN x coordinate scans
to the empty run. -/
theorem nonfinite_coord_rejected_witness :
    isReasonableCoord 0x7FC00000 = false ∧
    isReasonableCoord 0x7F800000 = false ∧
    scanFrom ([0, 0, 0, 0, 127, 192, 0, 0] ++ List.replicate 8 0) 16 .Big 0 =
      [] :=
  ⟨nonfinite_coord_rejected.1 0x7FC00000 (by decide),
    nonfinite_coord_rejected.1 0x7F800000 (by decide),
    nonfinite_coord_rejected.2.2 ([0, 0, 0, 0, 127, 192, 0, 0] ++
      List.replicate 8 0) 16 .Big 0 (by decide) (by decide) (by decide)⟩

example : byteAt [1, 2, 300] 2 = 44 := by decide
example : readBEUInt32 [1, 2, 3, 4] 0 = 0x01020304 := by decide
example : readLEUInt32 [1, 2, 3, 4] 0 = 0x04030201 := by decide
example : isReasonableCoord 0 = true := by decide
example : isReasonableCoord 0x47C35000 = false := by decide
example : isReasonableCoord 0x47C34FFF = true := by decide
example : isReasonableCoord 0x7F800000 = false := by decide
example : scanFrom (List.replicate 48 0) 16 .Big 0 =
    [⟨0, 0, 0, 0, 0⟩, ⟨0, 0, 0, 0, 16⟩, ⟨0, 0, 0, 0, 32⟩] := by decide
example : selectBest (List.replicate 48 0) =
    ⟨[⟨0, 0, 0, 0, 0⟩, ⟨0, 0, 0, 0, 16⟩, ⟨0, 0, 0, 0, 32⟩], 16, 0, .Big⟩ := by
  decide
example : selectBest [1, 2, 3] = ⟨[], 0, 0, .Big⟩ := by decide
